import Mathlib

set_option autoImplicit false

/-!
Shallow embedding of the photo-sorter repository core
(`photo-sorter.js`, `src/projectManager.js`, `src/statsManager.js`)
and proofs about the properties its specification states.
-/

namespace PhotoSorter

/-! ### Tag normalization (projectManager.js, `#normalizeTag` / `#equalTag` / `#containsTag`) -/

/-- Whitespace run collapsing with a flag recording whether the previous
character was whitespace: each maximal whitespace run becomes one space. -/
def collapseWsAux : Bool → List Char → List Char
  | _, [] => []
  | prevWs, c :: cs =>
    if c.isWhitespace then
      if prevWs then collapseWsAux true cs
      else ' ' :: collapseWsAux true cs
    else c :: collapseWsAux false cs

/-- Whitespace run collapsing: the embedding of `replace(/\s+/g, ' ')`. -/
def collapseWs (l : List Char) : List Char :=
  collapseWsAux false l

/-- Trim of leading and trailing whitespace, the embedding of `String.prototype.trim`. -/
def trimChars (l : List Char) : List Char :=
  ((l.dropWhile Char.isWhitespace).reverse.dropWhile Char.isWhitespace).reverse

/-- Embedding of `#normalizeTag`: `tag.trim().replace(/\s+/g, ' ')`. -/
def normalizeTag (s : String) : String :=
  String.mk (collapseWs (trimChars s.toList))

/-- Lower-cased character list of a string, the embedding of `String.prototype.toLowerCase`. -/
def lowerList (s : String) : List Char :=
  s.toList.map Char.toLower

/-- Embedding of `#equalTag`: case-insensitive string equality. -/
def equalTag (a b : String) : Bool :=
  lowerList a == lowerList b

/-- Embedding of `#containsTag`: case-insensitive membership via `#equalTag`. -/
def containsTag (l : List String) (candidate : String) : Bool :=
  l.any (fun t => equalTag t candidate)

/-! ### The Project record (projectManager.js) -/

/-- Embedding of the persisted project record.  `images` is the insertion-ordered
map from file name to that image's tag list (a JS object whose entries are
`{ tags: [...] }`); `updatedAt` is a timestamp modeled as a natural number. -/
structure Project where
  version : Nat
  root : String
  images : List (String × List String)
  tags : List String
  updatedAt : Nat
deriving Repr, DecidableEq

/-- Association-list lookup of an image entry by file name (JS object property access). -/
def lookupImg : List (String × List String) → String → Option (List String)
  | [], _ => none
  | e :: es, k => if e.1 = k then some e.2 else lookupImg es k

/-- Embedding of `#newProject`. -/
def newProject (now : Nat) : Project :=
  { version := 1, root := ".", images := [], tags := [], updatedAt := now }

/-- Embedding of `#upsertGlobalTag`: append the tag to the global list unless a
case-insensitive match is already present. -/
def upsertGlobalTag (tags : List String) (tag : String) : List String :=
  if containsTag tags tag then tags else tags ++ [tag]

/-- Embedding of `ProjectManager.addTag`: normalize, no-op on empty, create the
image entry if absent, append the tag if no case-insensitive match exists, and
upsert into the global tag list. -/
def addTag (p : Project) (fileName rawTag : String) : Project :=
  let tag := normalizeTag rawTag
  if tag = "" then p
  else
    let images0 :=
      if (lookupImg p.images fileName).isNone then p.images ++ [(fileName, [])]
      else p.images
    let images1 := images0.map (fun e =>
      if e.1 = fileName then
        (e.1, if containsTag e.2 tag then e.2 else e.2 ++ [tag])
      else e)
    { p with images := images1, tags := upsertGlobalTag p.tags tag }

/-- Removal of the first case-insensitive match (`findIndex` + `splice`). -/
def removeFirstMatch : List String → String → List String
  | [], _ => []
  | t :: ts, tag => if equalTag t tag then ts else t :: removeFirstMatch ts tag

/-- Embedding of `ProjectManager.removeTag`. -/
def removeTag (p : Project) (fileName rawTag : String) : Project :=
  let tag := normalizeTag rawTag
  if tag = "" then p
  else
    match lookupImg p.images fileName with
    | none => p
    | some _ =>
      { p with images := p.images.map (fun e =>
          if e.1 = fileName then (e.1, removeFirstMatch e.2 tag) else e) }

/-- Embedding of `ProjectManager.getTags` (the defensive copy is the identity here). -/
def getTags (p : Project) (fileName : String) : List String :=
  (lookupImg p.images fileName).getD []

/-! ### loadOrCreate (projectManager.js) -/

/-- What reading the on-disk project file can yield: no file, an unreadable or
unparseable file (`#safeReadJson` returns `null`, as does a parsed non-object),
or a parsed project. -/
inductive DiskRead where
  | absent
  | badParse
  | parsed (p : Project)
deriving Repr, DecidableEq

/-- The merge loop of `loadOrCreate`: every discovered file name not already
present is added with an empty tag list; existing entries are untouched. -/
def mergeImages (images : List (String × List String)) (names : List String) :
    List (String × List String) :=
  names.foldl
    (fun acc name =>
      if (lookupImg acc name).isNone then acc ++ [(name, [])] else acc)
    images

/-- Embedding of `ProjectManager.loadOrCreate`.  `ioError` models any exception
inside the body (directory creation, the atomic write, a malformed parsed
object): the surrounding catch then returns a fresh minimal project.  The
`filter` mirrors `.filter(Boolean)` on the mapped base names. -/
def loadOrCreate (disk : DiskRead) (ioError : Bool) (names : List String) (now : Nat) :
    Project :=
  if ioError then newProject now
  else
    let base :=
      match disk with
      | .absent => newProject now
      | .badParse => newProject now
      | .parsed p => p
    let kept := names.filter (fun n => n ≠ "")
    { base with images := mergeImages base.images kept, updatedAt := now }

/-- Number of entries of a tag list matching a candidate case-insensitively. -/
def countTagMatches (l : List String) (t : String) : Nat :=
  (l.filter (fun x => equalTag x t)).length

theorem equalTag_refl (t : String) : equalTag t t = true := by
  simp [equalTag]

theorem countTagMatches_append (l₁ l₂ : List String) (t : String) :
    countTagMatches (l₁ ++ l₂) t = countTagMatches l₁ t + countTagMatches l₂ t := by
  simp [countTagMatches, List.filter_append]

theorem containsTag_nil (t : String) : containsTag [] t = false := rfl

theorem containsTag_false_of_count_zero {l : List String} {t : String}
    (h : countTagMatches l t = 0) : containsTag l t = false := by
  have hnil : l.filter (fun x => equalTag x t) = [] :=
    List.length_eq_zero.mp h
  have hall := List.filter_eq_nil_iff.mp hnil
  simp only [containsTag, List.any_eq_false]
  intro x hx
  simpa using hall x hx

theorem lookupImg_append_left {l₁ : List (String × List String)} {k : String}
    {v : List String} (h : lookupImg l₁ k = some v) (l₂ : List (String × List String)) :
    lookupImg (l₁ ++ l₂) k = some v := by
  induction l₁ with
  | nil => exact Option.noConfusion h
  | cons e es ih =>
    by_cases he : e.1 = k
    · simp only [lookupImg, he, if_pos] at h
      simp [lookupImg, he, h]
    · rw [List.cons_append]
      simp only [lookupImg, he, if_false] at h ⊢
      exact ih h

theorem lookupImg_append_right {l₁ : List (String × List String)} {k : String}
    (h : lookupImg l₁ k = none) (l₂ : List (String × List String)) :
    lookupImg (l₁ ++ l₂) k = lookupImg l₂ k := by
  induction l₁ with
  | nil => rfl
  | cons e es ih =>
    by_cases he : e.1 = k
    · simp [lookupImg, he] at h
    · rw [List.cons_append]
      simp only [lookupImg, he, if_false] at h ⊢
      exact ih h

theorem map_if_eq_of_lookup_none {l : List (String × List String)} {k : String}
    (f : String × List String → String × List String) (h : lookupImg l k = none) :
    l.map (fun e => if e.1 = k then f e else e) = l := by
  induction l with
  | nil => rfl
  | cons e es ih =>
    by_cases he : e.1 = k
    · simp [lookupImg, he] at h
    · simp only [lookupImg, he, if_false] at h
      simp [he, ih h]

/-! ### Merge-only images map (C5) -/

theorem mergeImages_preserves {images : List (String × List String)} {k : String}
    {v : List String} (names : List String) (h : lookupImg images k = some v) :
    lookupImg (mergeImages images names) k = some v := by
  induction names generalizing images with
  | nil => simpa [mergeImages]
  | cons n ns ih =>
    simp only [mergeImages, List.foldl_cons]
    by_cases hn : (lookupImg images n).isNone
    · simp only [hn, if_pos]
      exact ih (lookupImg_append_left h _)
    · simp only [hn, if_neg, Bool.false_eq_true, not_false_iff]
      exact ih h

theorem mergeImages_adds {images : List (String × List String)} {k : String}
    (names : List String) (hk : k ∈ names) (h : lookupImg images k = none) :
    lookupImg (mergeImages images names) k = some [] := by
  induction names generalizing images with
  | nil => cases hk
  | cons n ns ih =>
    simp only [mergeImages, List.foldl_cons]
    by_cases he : n = k
    · subst he
      simp only [h, Option.isNone_none, if_pos]
      have hfound : lookupImg (images ++ [(n, [])]) n = some [] := by
        rw [lookupImg_append_right h]
        simp [lookupImg]
      exact mergeImages_preserves ns hfound
    · rcases List.mem_cons.mp hk with rfl | hmem
      · exact absurd rfl he
      · by_cases hn : (lookupImg images n).isNone
        · simp only [hn, if_pos]
          have h2 : lookupImg (images ++ [(n, [])]) k = none := by
            rw [lookupImg_append_right h]
            simp [lookupImg, he]
          exact ih hmem h2
        · simp only [hn, if_neg, Bool.false_eq_true, not_false_iff]
          exact ih hmem h

/-- C5: `loadOrCreate` is merge-only on the images map: every file name already
present keeps its tag list unchanged, and every discovered non-empty file name
not previously present appears with an empty tag list. -/
theorem loadOrCreate_merge_only (p : Project) (names : List String) (now : Nat)
    (k : String) :
    (∀ v, lookupImg p.images k = some v →
      lookupImg (loadOrCreate (.parsed p) false names now).images k = some v)
    ∧ (k ∈ names → k ≠ "" → lookupImg p.images k = none →
      lookupImg (loadOrCreate (.parsed p) false names now).images k = some []) := by
  constructor
  · intro v hv
    simp only [loadOrCreate, if_neg (Bool.false_ne_true)]
    exact mergeImages_preserves _ hv
  · intro hmem hne hnone
    simp only [loadOrCreate, if_neg (Bool.false_ne_true)]
    exact mergeImages_adds _ (List.mem_filter.mpr ⟨hmem, by simpa using hne⟩) hnone

/-- Closed instance of C5: a parsed project with one tagged image merged with a
newly discovered file keeps the old entry and gains the new one untagged. -/
theorem loadOrCreate_merge_only_witness :
    lookupImg (loadOrCreate
        (.parsed { version := 1, root := ".", images := [("a.jpg", ["x"])],
                   tags := [], updatedAt := 0 })
        false ["b.jpg"] 7).images "a.jpg" = some ["x"]
    ∧ lookupImg (loadOrCreate
        (.parsed { version := 1, root := ".", images := [("a.jpg", ["x"])],
                   tags := [], updatedAt := 0 })
        false ["b.jpg"] 7).images "b.jpg" = some [] := by
  refine ⟨?_, ?_⟩
  · exact (loadOrCreate_merge_only _ ["b.jpg"] 7 "a.jpg").1 ["x"] (by decide)
  · exact (loadOrCreate_merge_only _ ["b.jpg"] 7 "b.jpg").2 (by decide) (by decide)
      (by decide)

/-! ### loadOrCreate error resilience (C6) -/

/-- C6: `loadOrCreate` never fails its caller: an unreadable or unparseable
project file is treated exactly like an absent one (the on-disk content is
discarded and a fresh in-memory project is started), and any internal error
yields the minimal valid empty project. -/
theorem loadOrCreate_error_resilient (disk : DiskRead) (names : List String)
    (now : Nat) :
    loadOrCreate .badParse false names now = loadOrCreate .absent false names now
    ∧ loadOrCreate disk true names now = newProject now
    ∧ (loadOrCreate disk true names now).images = []
    ∧ (loadOrCreate disk true names now).tags = []
    ∧ (loadOrCreate disk true names now).version = 1
    ∧ (loadOrCreate disk true names now).root = "." := by
  refine ⟨rfl, rfl, ?_, ?_, ?_, ?_⟩ <;> simp [loadOrCreate, newProject]

/-! ### Case-insensitive tag uniqueness (C4) -/

theorem lowerList_eq_nil_iff (s : String) : lowerList s = [] ↔ s = "" := by
  cases s with
  | mk data =>
    simp only [lowerList, List.map_eq_nil_iff]
    constructor
    · intro h
      simp only [String.toList] at h
      subst h
      rfl
    · intro h
      rw [h]
      rfl

theorem addTag_case_insensitive_unique (p : Project) (fileName t1 t2 : String)
    (hne : normalizeTag t1 ≠ "")
    (heq : equalTag (normalizeTag t1) (normalizeTag t2) = true)
    (hfresh : lookupImg p.images fileName = none)
    (hglob : countTagMatches p.tags (normalizeTag t1) = 0) :
    getTags (addTag (addTag p fileName t1) fileName t2) fileName = [normalizeTag t1]
    ∧ countTagMatches (addTag (addTag p fileName t1) fileName t2).tags
        (normalizeTag t1) = 1 := by
  have hcontains1 : containsTag p.tags (normalizeTag t1) = false :=
    containsTag_false_of_count_zero hglob
  have hne2 : normalizeTag t2 ≠ "" := by
    intro h2
    apply hne
    have hlow : lowerList (normalizeTag t1) = lowerList (normalizeTag t2) := by
      simpa [equalTag] using heq
    rw [h2] at hlow
    exact (lowerList_eq_nil_iff _).mp (by simpa [lowerList] using hlow)
  have h1 : addTag p fileName t1 =
      { p with images := p.images ++ [(fileName, [normalizeTag t1])],
               tags := p.tags ++ [normalizeTag t1] } := by
    unfold addTag upsertGlobalTag
    rw [if_neg hne]
    simp [hfresh, map_if_eq_of_lookup_none _ hfresh, hcontains1, containsTag_nil]
  rw [h1]
  have hlookup : lookupImg (p.images ++ [(fileName, [normalizeTag t1])]) fileName
      = some [normalizeTag t1] := by
    rw [lookupImg_append_right hfresh]
    simp [lookupImg]
  have hcontainsG : containsTag (p.tags ++ [normalizeTag t1]) (normalizeTag t2)
      = true := by
    simp [containsTag, List.any_append, heq]
  have h2 : addTag
      { p with images := p.images ++ [(fileName, [normalizeTag t1])],
               tags := p.tags ++ [normalizeTag t1] } fileName t2 =
      { p with images := p.images ++ [(fileName, [normalizeTag t1])],
               tags := p.tags ++ [normalizeTag t1] } := by
    unfold addTag upsertGlobalTag
    rw [if_neg hne2]
    simp [hlookup, List.map_append, map_if_eq_of_lookup_none _ hfresh,
      containsTag, heq, hcontainsG]
  rw [h2]
  constructor
  · simp [getTags, hlookup]
  · rw [countTagMatches_append, hglob]
    simp [countTagMatches, equalTag_refl]

theorem addTag_case_insensitive_unique_witness :
    getTags (addTag (addTag (newProject 0) "img.jpg" "Yes") "img.jpg" " yes ")
        "img.jpg" = [normalizeTag "Yes"]
    ∧ countTagMatches
        (addTag (addTag (newProject 0) "img.jpg" "Yes") "img.jpg" " yes ").tags
        (normalizeTag "Yes") = 1 :=
  addTag_case_insensitive_unique (newProject 0) "img.jpg" "Yes" " yes "
    (by decide) (by decide) (by decide) (by decide)

/-! ### Photo ordering (photo-sorter.js, `orderPhotos`) -/

/-- Per-photo metadata gathered before sorting: EXIF capture time in
milliseconds when present, file modification time, and base name. -/
structure PhotoMeta where
  file : String
  exifDateMs : Option Int
  mtimeMs : Int
  name : String
deriving Repr, DecidableEq

/-- Three-way comparison in a linear order, used at `Int`, `Nat` and `Char`. -/
def cmp3 {α : Type} [LinearOrder α] (a b : α) : Ordering :=
  if a < b then .lt else if b < a then .gt else .eq

/-- Lexicographic combination of two comparison outcomes: the second one
decides only when the first is a tie. -/
def ordThen : Ordering → Ordering → Ordering
  | .eq, p => p
  | o, _ => o

/-- Lexicographic comparison of lists under an element comparison. -/
def lexCmp {α : Type} (f : α → α → Ordering) : List α → List α → Ordering
  | [], [] => .eq
  | [], _ :: _ => .lt
  | _ :: _, [] => .gt
  | a :: as, b :: bs => ordThen (f a b) (lexCmp f as bs)

/-- Lexicographic comparison of character lists. -/
def charListCmp : List Char → List Char → Ordering :=
  lexCmp cmp3

/-- A token of natural (numeric-aware) file-name comparison: a digit run taken
as a number, or a lower-cased letter run. -/
def NameToken : Type := Nat ⊕ List Char

instance : DecidableEq NameToken :=
  inferInstanceAs (DecidableEq (Nat ⊕ List Char))

/-- Token comparison: numbers by value, digit runs before letter runs, letter
runs lexicographically on their lower-cased characters. -/
def tokCmp : NameToken → NameToken → Ordering
  | .inl m, .inl n => cmp3 m n
  | .inl _, .inr _ => .lt
  | .inr _, .inl _ => .gt
  | .inr s, .inr t => charListCmp s t

/-- Lexicographic comparison of token lists. -/
def tokensCmp : List NameToken → List NameToken → Ordering :=
  lexCmp tokCmp

/-- Grouping of a character list into maximal runs of digits / non-digits,
tagged with whether the run is a digit run. -/
def natRuns : List Char → List (Bool × List Char)
  | [] => []
  | c :: cs =>
    match natRuns cs with
    | [] => [(c.isDigit, [c])]
    | (b, run) :: rest =>
      if c.isDigit = b then (b, c :: run) :: rest
      else (c.isDigit, [c]) :: (b, run) :: rest

/-- Numeric value of a digit run. -/
def digitsToNat (ds : List Char) : Nat :=
  ds.foldl (fun n c => n * 10 + (c.toNat - '0'.toNat)) 0

/-- Tokenization of a file name for natural comparison. -/
def natTokens (s : String) : List NameToken :=
  (natRuns s.toList).map (fun r =>
    if r.1 then .inl (digitsToNat r.2) else .inr (r.2.map Char.toLower))

/-- Natural (numeric-aware, case-insensitive) file-name comparison: the
embedding of `localeCompare(undefined, { numeric: true, sensitivity: 'base' })`. -/
def naturalCompare (a b : String) : Ordering :=
  tokensCmp (natTokens a) (natTokens b)

def ordToInt : Ordering → Int
  | .lt => -1
  | .eq => 0
  | .gt => 1

/-- The shared fall-through tail of the `orderPhotos` comparator: mtime
difference, then natural name comparison. -/
def cmpMtimeName (a b : PhotoMeta) : Int :=
  if a.mtimeMs ≠ b.mtimeMs then a.mtimeMs - b.mtimeMs
  else ordToInt (naturalCompare a.name b.name)

/-- Embedding of the comparator passed to `withMeta.sort` in `orderPhotos`:
EXIF date difference when both are present and differ, presence of an EXIF
date first, then mtime, then natural name comparison. -/
def cmpPhotoMeta (a b : PhotoMeta) : Int :=
  match a.exifDateMs, b.exifDateMs with
  | some ta, some tb => if ta ≠ tb then ta - tb else cmpMtimeName a b
  | some _, none => -1
  | none, some _ => 1
  | none, none => cmpMtimeName a b

/-- The claim's first sort key, written from the spec: capture timestamps
ascending, and a photo with a capture timestamp sorts before any without. -/
def tsRankCompare : Option Int → Option Int → Ordering
  | some ta, some tb => cmp3 ta tb
  | some _, none => .lt
  | none, some _ => .gt
  | none, none => .eq

/-- The claim's second and third sort keys, written from the spec: file
modification time ascending, then natural file-name order. -/
def specSecondary (a b : PhotoMeta) : Ordering :=
  ordThen (cmp3 a.mtimeMs b.mtimeMs) (naturalCompare a.name b.name)

/-- The claimed sort precedence, written from the spec. -/
def specPhotoCompare (a b : PhotoMeta) : Ordering :=
  ordThen (tsRankCompare a.exifDateMs b.exifDateMs) (specSecondary a b)

/-- Non-strict order induced by the claimed precedence. -/
def specLe (a b : PhotoMeta) : Prop :=
  specPhotoCompare a b ≠ .gt

/-- Non-strict order induced by the code comparator. -/
def codeLe (a b : PhotoMeta) : Prop :=
  cmpPhotoMeta a b ≤ 0

instance : DecidableRel codeLe := fun a b =>
  inferInstanceAs (Decidable (cmpPhotoMeta a b ≤ 0))

/-- Embedding of `orderPhotos`: a stable sort of the metadata list by the
code comparator (`Array.prototype.sort` is stable, as is insertion sort). -/
def orderPhotos (l : List PhotoMeta) : List PhotoMeta :=
  l.insertionSort codeLe


theorem ordThen_lt (p : Ordering) : ordThen .lt p = .lt := rfl

theorem ordThen_eq (p : Ordering) : ordThen .eq p = p := rfl

theorem ordThen_gt (p : Ordering) : ordThen .gt p = .gt := rfl

theorem cmp3_lt_iff {α : Type} [LinearOrder α] (a b : α) :
    cmp3 a b = .lt ↔ a < b := by
  unfold cmp3
  rcases lt_trichotomy a b with h | h | h
  · simp [h]
  · subst h
    simp [lt_irrefl]
  · simp [lt_asymm h, h]

theorem cmp3_gt_iff {α : Type} [LinearOrder α] (a b : α) :
    cmp3 a b = .gt ↔ b < a := by
  unfold cmp3
  rcases lt_trichotomy a b with h | h | h
  · simp [h, lt_asymm h]
  · subst h
    simp [lt_irrefl]
  · simp [lt_asymm h, h]

theorem cmp3_eq_iff {α : Type} [LinearOrder α] (a b : α) :
    cmp3 a b = .eq ↔ a = b := by
  unfold cmp3
  rcases lt_trichotomy a b with h | h | h
  · simp [h, ne_of_lt h]
  · subst h
    simp [lt_irrefl]
  · simp [lt_asymm h, h, (ne_of_lt h).symm]

theorem cmp3_swap {α : Type} [LinearOrder α] (a b : α) :
    cmp3 b a = (cmp3 a b).swap := by
  rcases lt_trichotomy a b with h | h | h
  · rw [(cmp3_lt_iff a b).mpr h, (cmp3_gt_iff b a).mpr h]
    rfl
  · subst h
    rw [(cmp3_eq_iff a a).mpr rfl]
    rfl
  · rw [(cmp3_gt_iff a b).mpr h, (cmp3_lt_iff b a).mpr h]
    rfl

theorem cmp3_lt_trans {α : Type} [LinearOrder α] {a b c : α}
    (h1 : cmp3 a b = .lt) (h2 : cmp3 b c = .lt) : cmp3 a c = .lt :=
  (cmp3_lt_iff a c).mpr (lt_trans ((cmp3_lt_iff a b).mp h1) ((cmp3_lt_iff b c).mp h2))

theorem lexCmp_swap {α : Type} (f : α → α → Ordering)
    (hsw : ∀ a b, f b a = (f a b).swap) :
    ∀ s t, lexCmp f t s = (lexCmp f s t).swap := by
  intro s
  induction s with
  | nil => intro t; cases t <;> rfl
  | cons a as ih =>
    intro t
    cases t with
    | nil => rfl
    | cons b bs =>
      show ordThen (f b a) (lexCmp f bs as) = (ordThen (f a b) (lexCmp f as bs)).swap
      rw [hsw a b, ih bs]
      cases f a b <;> rfl

theorem lexCmp_eq_iff {α : Type} (f : α → α → Ordering)
    (heq : ∀ a b, f a b = .eq ↔ a = b) :
    ∀ s t, lexCmp f s t = .eq ↔ s = t := by
  intro s
  induction s with
  | nil => intro t; cases t <;> simp [lexCmp]
  | cons a as ih =>
    intro t
    cases t with
    | nil => simp [lexCmp]
    | cons b bs =>
      show ordThen (f a b) (lexCmp f as bs) = .eq ↔ _
      cases hab : f a b with
      | lt =>
        rw [ordThen_lt]
        simp only [List.cons.injEq]
        constructor
        · intro h
          exact absurd h (by decide)
        · rintro ⟨rfl, rfl⟩
          rw [(heq a a).mpr rfl] at hab
          exact absurd hab (by decide)
      | eq =>
        rw [ordThen_eq]
        have hab2 : a = b := (heq a b).mp hab
        subst hab2
        simpa using ih bs
      | gt =>
        rw [ordThen_gt]
        simp only [List.cons.injEq]
        constructor
        · intro h
          exact absurd h (by decide)
        · rintro ⟨rfl, rfl⟩
          rw [(heq a a).mpr rfl] at hab
          exact absurd hab (by decide)

theorem lexCmp_lt_trans {α : Type} (f : α → α → Ordering)
    (heq : ∀ a b, f a b = .eq ↔ a = b)
    (htr : ∀ a b c, f a b = .lt → f b c = .lt → f a c = .lt) :
    ∀ s t u, lexCmp f s t = .lt → lexCmp f t u = .lt → lexCmp f s u = .lt := by
  intro s
  induction s with
  | nil =>
    intro t u h1 h2
    cases t with
    | nil => exact absurd h1 (by simp [lexCmp])
    | cons b bs =>
      cases u with
      | nil => exact absurd h2 (by simp [lexCmp])
      | cons c cs => rfl
  | cons a as ih =>
    intro t u h1 h2
    cases t with
    | nil => exact absurd h1 (by simp [lexCmp])
    | cons b bs =>
      cases u with
      | nil => exact absurd h2 (by simp [lexCmp])
      | cons c cs =>
        have h1e : ordThen (f a b) (lexCmp f as bs) = .lt := h1
        have h2e : ordThen (f b c) (lexCmp f bs cs) = .lt := h2
        show ordThen (f a c) (lexCmp f as cs) = .lt
        cases hab : f a b with
        | lt =>
          cases hbc : f b c with
          | lt => rw [htr a b c hab hbc, ordThen_lt]
          | eq =>
            have hb : b = c := (heq b c).mp hbc
            subst hb
            rw [hab, ordThen_lt]
          | gt =>
            rw [hbc, ordThen_gt] at h2e
            exact absurd h2e (by decide)
        | eq =>
          have hb : a = b := (heq a b).mp hab
          subst hb
          cases hbc : f a c with
          | lt => rw [ordThen_lt]
          | eq =>
            rw [ordThen_eq]
            rw [hab, ordThen_eq] at h1e
            rw [hbc, ordThen_eq] at h2e
            exact ih bs cs h1e h2e
          | gt =>
            rw [hbc, ordThen_gt] at h2e
            exact absurd h2e (by decide)
        | gt =>
          rw [hab, ordThen_gt] at h1e
          exact absurd h1e (by decide)

theorem tokCmp_swap (a b : NameToken) : tokCmp b a = (tokCmp a b).swap := by
  cases a with
  | inl m =>
    cases b with
    | inl n => exact cmp3_swap m n
    | inr t => rfl
  | inr s =>
    cases b with
    | inl n => rfl
    | inr t => exact lexCmp_swap cmp3 cmp3_swap s t

theorem tokCmp_eq_iff (a b : NameToken) : tokCmp a b = .eq ↔ a = b := by
  cases a with
  | inl m =>
    cases b with
    | inl n =>
      rw [show tokCmp (.inl m) (.inl n) = cmp3 m n from rfl, cmp3_eq_iff]
      constructor
      · intro h
        rw [h]
      · intro h
        exact Sum.inl.inj h
    | inr t =>
      constructor
      · intro h
        exact Ordering.noConfusion h
      · intro h
        exact absurd h (by simp)
  | inr s =>
    cases b with
    | inl n =>
      constructor
      · intro h
        exact Ordering.noConfusion h
      · intro h
        exact absurd h (by simp)
    | inr t =>
      rw [show tokCmp (.inr s) (.inr t) = charListCmp s t from rfl]
      rw [show charListCmp s t = lexCmp cmp3 s t from rfl]
      rw [lexCmp_eq_iff cmp3 cmp3_eq_iff]
      constructor
      · intro h
        rw [h]
      · intro h
        exact Sum.inr.inj h

theorem tokCmp_lt_trans (a b c : NameToken)
    (h1 : tokCmp a b = .lt) (h2 : tokCmp b c = .lt) : tokCmp a c = .lt := by
  cases a with
  | inl m =>
    cases b with
    | inl n =>
      cases c with
      | inl k => exact cmp3_lt_trans h1 h2
      | inr u => rfl
    | inr t =>
      cases c with
      | inl k => exact absurd h2 (by simp [tokCmp])
      | inr u => rfl
  | inr s =>
    cases b with
    | inl n => exact absurd h1 (by simp [tokCmp])
    | inr t =>
      cases c with
      | inl k => exact absurd h2 (by simp [tokCmp])
      | inr u =>
        exact lexCmp_lt_trans cmp3 cmp3_eq_iff (fun x y z => cmp3_lt_trans) s t u h1 h2

theorem tokensCmp_swap (s t : List NameToken) : tokensCmp t s = (tokensCmp s t).swap :=
  lexCmp_swap tokCmp tokCmp_swap s t

theorem tokensCmp_eq_iff (s t : List NameToken) : tokensCmp s t = .eq ↔ s = t :=
  lexCmp_eq_iff tokCmp tokCmp_eq_iff s t

theorem tokensCmp_lt_trans {s t u : List NameToken}
    (h1 : tokensCmp s t = .lt) (h2 : tokensCmp t u = .lt) : tokensCmp s u = .lt :=
  lexCmp_lt_trans tokCmp tokCmp_eq_iff tokCmp_lt_trans s t u h1 h2

theorem naturalCompare_swap (a b : String) :
    naturalCompare b a = (naturalCompare a b).swap :=
  tokensCmp_swap _ _

theorem naturalCompare_eq_tokens {a b : String} (h : naturalCompare a b = .eq) :
    natTokens a = natTokens b :=
  (tokensCmp_eq_iff _ _).mp h

theorem naturalCompare_lt_trans {a b c : String}
    (h1 : naturalCompare a b = .lt) (h2 : naturalCompare b c = .lt) :
    naturalCompare a c = .lt :=
  tokensCmp_lt_trans h1 h2

theorem tsRank_swap (x y : Option Int) :
    tsRankCompare y x = (tsRankCompare x y).swap := by
  cases x <;> cases y <;> try rfl
  exact cmp3_swap _ _

theorem tsRank_eq_iff {x y : Option Int} : tsRankCompare x y = .eq ↔ x = y := by
  cases x <;> cases y <;> simp [tsRankCompare, cmp3_eq_iff]

theorem tsRank_lt_trans {x y z : Option Int}
    (h1 : tsRankCompare x y = .lt) (h2 : tsRankCompare y z = .lt) :
    tsRankCompare x z = .lt := by
  cases x with
  | none => cases y <;> exact Ordering.noConfusion h1
  | some a =>
    cases y with
    | none => cases z <;> exact Ordering.noConfusion h2
    | some b =>
      cases z with
      | none => rfl
      | some c => exact cmp3_lt_trans h1 h2

theorem cmpMtimeName_sign (a b : PhotoMeta) :
    (cmpMtimeName a b < 0 ↔ specSecondary a b = .lt)
    ∧ (cmpMtimeName a b = 0 ↔ specSecondary a b = .eq)
    ∧ (0 < cmpMtimeName a b ↔ specSecondary a b = .gt) := by
  unfold cmpMtimeName specSecondary
  by_cases h : a.mtimeMs = b.mtimeMs
  · rw [if_neg (by simpa using h), (cmp3_eq_iff _ _).mpr h, ordThen_eq]
    cases naturalCompare a.name b.name <;> decide
  · rw [if_pos h]
    rcases lt_or_gt_of_ne h with hlt | hgt
    · rw [(cmp3_lt_iff _ _).mpr hlt, ordThen_lt]
      refine ⟨?_, ?_, ?_⟩ <;> simp <;> omega
    · rw [(cmp3_gt_iff _ _).mpr hgt, ordThen_gt]
      refine ⟨?_, ?_, ?_⟩ <;> simp <;> omega

theorem cmpPhotoMeta_sign (a b : PhotoMeta) :
    (cmpPhotoMeta a b < 0 ↔ specPhotoCompare a b = .lt)
    ∧ (cmpPhotoMeta a b = 0 ↔ specPhotoCompare a b = .eq)
    ∧ (0 < cmpPhotoMeta a b ↔ specPhotoCompare a b = .gt) := by
  cases ha : a.exifDateMs with
  | none =>
    cases hb : b.exifDateMs with
    | none =>
      simp only [cmpPhotoMeta, specPhotoCompare, ha, hb, tsRankCompare, ordThen_eq]
      exact cmpMtimeName_sign a b
    | some tb =>
      simp only [cmpPhotoMeta, specPhotoCompare, ha, hb, tsRankCompare, ordThen_gt]
      refine ⟨?_, ?_, ?_⟩ <;> decide
  | some ta =>
    cases hb : b.exifDateMs with
    | none =>
      simp only [cmpPhotoMeta, specPhotoCompare, ha, hb, tsRankCompare, ordThen_lt]
      refine ⟨?_, ?_, ?_⟩ <;> decide
    | some tb =>
      simp only [cmpPhotoMeta, specPhotoCompare, ha, hb, tsRankCompare]
      by_cases h : ta = tb
      · subst h
        rw [if_neg (by simp), (cmp3_eq_iff ta ta).mpr rfl, ordThen_eq]
        exact cmpMtimeName_sign a b
      · rw [if_pos h]
        rcases lt_or_gt_of_ne h with hlt | hgt
        · rw [(cmp3_lt_iff _ _).mpr hlt, ordThen_lt]
          refine ⟨?_, ?_, ?_⟩ <;> simp <;> omega
        · rw [(cmp3_gt_iff _ _).mpr hgt, ordThen_gt]
          refine ⟨?_, ?_, ?_⟩ <;> simp <;> omega

theorem codeLe_iff_specLe (a b : PhotoMeta) : codeLe a b ↔ specLe a b := by
  unfold codeLe specLe
  obtain ⟨h1, h2, h3⟩ := cmpPhotoMeta_sign a b
  constructor
  · intro h hgt
    have := h3.mpr hgt
    omega
  · intro h
    cases hs : specPhotoCompare a b with
    | lt => exact le_of_lt (h1.mpr hs)
    | eq => exact le_of_eq (h2.mpr hs)
    | gt => exact absurd hs h

theorem specPhotoCompare_swap (a b : PhotoMeta) :
    specPhotoCompare b a = (specPhotoCompare a b).swap := by
  unfold specPhotoCompare specSecondary naturalCompare
  rw [tsRank_swap a.exifDateMs b.exifDateMs, cmp3_swap a.mtimeMs b.mtimeMs,
    tokensCmp_swap (natTokens a.name) (natTokens b.name)]
  cases tsRankCompare a.exifDateMs b.exifDateMs <;>
    cases cmp3 a.mtimeMs b.mtimeMs <;>
      cases tokensCmp (natTokens a.name) (natTokens b.name) <;> rfl

theorem specSecondary_le_trans (a b c : PhotoMeta)
    (h1 : specSecondary a b ≠ .gt) (h2 : specSecondary b c ≠ .gt) :
    specSecondary a c ≠ .gt := by
  unfold specSecondary at h1 h2 ⊢
  cases hab : cmp3 a.mtimeMs b.mtimeMs with
  | gt =>
    rw [hab, ordThen_gt] at h1
    exact absurd rfl h1
  | lt =>
    cases hbc : cmp3 b.mtimeMs c.mtimeMs with
    | gt =>
      rw [hbc, ordThen_gt] at h2
      exact absurd rfl h2
    | lt =>
      rw [cmp3_lt_trans hab hbc, ordThen_lt]
      simp
    | eq =>
      have hm : b.mtimeMs = c.mtimeMs := (cmp3_eq_iff _ _).mp hbc
      rw [← hm, hab, ordThen_lt]
      simp
  | eq =>
    have hm : a.mtimeMs = b.mtimeMs := (cmp3_eq_iff _ _).mp hab
    rw [hab, ordThen_eq] at h1
    cases hbc : cmp3 b.mtimeMs c.mtimeMs with
    | gt =>
      rw [hbc, ordThen_gt] at h2
      exact absurd rfl h2
    | lt =>
      rw [hm, hbc, ordThen_lt]
      simp
    | eq =>
      rw [hbc, ordThen_eq] at h2
      rw [hm, hbc, ordThen_eq]
      unfold naturalCompare at h1 h2 ⊢
      cases hn : tokensCmp (natTokens a.name) (natTokens b.name) with
      | gt => exact absurd hn h1
      | lt =>
        cases hn2 : tokensCmp (natTokens b.name) (natTokens c.name) with
        | gt => exact absurd hn2 h2
        | lt =>
          rw [tokensCmp_lt_trans hn hn2]
          simp
        | eq =>
          rw [← (tokensCmp_eq_iff _ _).mp hn2, hn]
          simp
      | eq =>
        rw [(tokensCmp_eq_iff _ _).mp hn]
        exact h2
  
theorem specLe_trans (a b c : PhotoMeta) (h1 : specLe a b) (h2 : specLe b c) :
    specLe a c := by
  unfold specLe specPhotoCompare at h1 h2 ⊢
  cases hab : tsRankCompare a.exifDateMs b.exifDateMs with
  | gt =>
    rw [hab, ordThen_gt] at h1
    exact absurd rfl h1
  | lt =>
    cases hbc : tsRankCompare b.exifDateMs c.exifDateMs with
    | gt =>
      rw [hbc, ordThen_gt] at h2
      exact absurd rfl h2
    | lt =>
      rw [tsRank_lt_trans hab hbc, ordThen_lt]
      simp
    | eq =>
      have he : b.exifDateMs = c.exifDateMs := tsRank_eq_iff.mp hbc
      rw [← he, hab, ordThen_lt]
      simp
  | eq =>
    have he : a.exifDateMs = b.exifDateMs := tsRank_eq_iff.mp hab
    rw [hab, ordThen_eq] at h1
    cases hbc : tsRankCompare b.exifDateMs c.exifDateMs with
    | gt =>
      rw [hbc, ordThen_gt] at h2
      exact absurd rfl h2
    | lt =>
      rw [he, hbc, ordThen_lt]
      simp
    | eq =>
      rw [hbc, ordThen_eq] at h2
      rw [he, hbc, ordThen_eq]
      exact specSecondary_le_trans a b c h1 h2

instance : IsTotal PhotoMeta codeLe :=
  ⟨fun a b => by
    rw [codeLe_iff_specLe, codeLe_iff_specLe]
    unfold specLe
    cases hs : specPhotoCompare a b with
    | lt => exact Or.inl (by simp [hs])
    | eq => exact Or.inl (by simp [hs])
    | gt =>
      refine Or.inr ?_
      rw [specPhotoCompare_swap a b, hs]
      decide⟩

instance : IsTrans PhotoMeta codeLe :=
  ⟨fun a b c h1 h2 => (codeLe_iff_specLe a c).mpr
    (specLe_trans a b c ((codeLe_iff_specLe a b).mp h1) ((codeLe_iff_specLe b c).mp h2))⟩

/-- C7: `orderPhotos` sorts by exactly the claimed precedence: the output is
sorted under the spec order (capture timestamp ascending with
timestamp-bearing photos first, then mtime ascending, then natural
case-insensitive file-name order), it is a permutation of the input, and the
code comparator agrees in sign with the spec precedence on every pair. -/
theorem orderPhotos_spec_precedence (l : List PhotoMeta) (a b : PhotoMeta) :
    (orderPhotos l).Sorted specLe ∧ (orderPhotos l).Perm l
    ∧ (cmpPhotoMeta a b < 0 ↔ specPhotoCompare a b = .lt)
    ∧ (cmpPhotoMeta a b = 0 ↔ specPhotoCompare a b = .eq)
    ∧ (0 < cmpPhotoMeta a b ↔ specPhotoCompare a b = .gt) := by
  refine ⟨?_, List.perm_insertionSort codeLe l, (cmpPhotoMeta_sign a b).1,
    (cmpPhotoMeta_sign a b).2.1, (cmpPhotoMeta_sign a b).2.2⟩
  have hs := List.sorted_insertionSort codeLe l
  exact hs.imp (fun {x y} h => (codeLe_iff_specLe x y).mp h)


/-! ### Duplicate detection (statsManager.js, `calculateFileHash` / `initialize`) -/

/-- Outcome of `calculateFileHash`: the MD5 digest of the file's first 10 MiB,
or the synthetic fallback fingerprint derived from the base name and the
current time when the read fails (`error_<name>_<now>`).  A hex digest never
starts with `error_`, so the two constructors model the disjoint string
shapes. -/
inductive Fingerprint where
  | md5 (digest : Nat)
  | errorFb (name : String) (time : Nat)
deriving Repr, DecidableEq

/-- Embedding of `hash.startsWith('error_')`. -/
def Fingerprint.isError : Fingerprint → Bool
  | .md5 _ => false
  | .errorFb _ _ => true

/-- Association-list lookup modeling `photoHashes.get` / `photoHashes.has`. -/
def lookupFp : List (Fingerprint × String) → Fingerprint → Option String
  | [], _ => none
  | e :: es, h => if e.1 = h then some e.2 else lookupFp es h

/-- Embedding of `photoHashes.set`: replace the value at an existing key,
otherwise append the new entry. -/
def setFp : List (Fingerprint × String) → Fingerprint → String → List (Fingerprint × String)
  | [], k, v => [(k, v)]
  | e :: es, k, v => if e.1 = k then (k, v) :: es else e :: setFp es k v

/-- One iteration of the duplicate scan in `StatsManager.initialize`: push an
`(original, duplicate)` pair when the fingerprint is already known and is not
an error fallback; otherwise record this photo under the fingerprint. -/
def dupStep (acc : List (Fingerprint × String) × List (String × String))
    (ph : String × Fingerprint) :
    List (Fingerprint × String) × List (String × String) :=
  match lookupFp acc.1 ph.2 with
  | some orig =>
    if ph.2.isError then (setFp acc.1 ph.2 ph.1, acc.2)
    else (acc.1, acc.2 ++ [(orig, ph.1)])
  | none => (setFp acc.1 ph.2 ph.1, acc.2)

/-- Embedding of the duplicate list built by `StatsManager.initialize` over the
photos in scan order, each paired with its computed fingerprint. -/
def initializeDuplicates (photos : List (String × Fingerprint)) : List (String × String) :=
  (photos.foldl dupStep ([], [])).2

/-- The first photo among `seen` (in scan order) that produced the given
fingerprint: written from the spec's words. -/
def firstProducer : List (String × Fingerprint) → Fingerprint → Option String
  | [], _ => none
  | q :: qs, h => if q.2 = h then some q.1 else firstProducer qs h

/-- The spec's characterization of the duplicate pairs: walking the photos in
scan order, each photo whose fingerprint is not an error fallback and was
already produced by an earlier photo yields one pair `(first producer, photo)`. -/
def specDupAux : List (String × Fingerprint) → List (String × Fingerprint) → List (String × String)
  | _, [] => []
  | seen, ph :: rest =>
    (if ph.2.isError then []
     else
       match firstProducer seen ph.2 with
       | some orig => [(orig, ph.1)]
       | none => []) ++ specDupAux (seen ++ [ph]) rest

/-- The spec's duplicate pairs for a whole scan. -/
def specDuplicates (photos : List (String × Fingerprint)) : List (String × String) :=
  specDupAux [] photos

theorem lookupFp_setFp_self (m : List (Fingerprint × String)) (k : Fingerprint)
    (v : String) : lookupFp (setFp m k v) k = some v := by
  induction m with
  | nil => simp [setFp, lookupFp]
  | cons e es ih =>
    by_cases he : e.1 = k
    · simp [setFp, he, lookupFp]
    · simp [setFp, he, lookupFp, ih]

theorem lookupFp_setFp_ne (m : List (Fingerprint × String)) (k h : Fingerprint)
    (v : String) (hne : h ≠ k) : lookupFp (setFp m k v) h = lookupFp m h := by
  have hkh : ¬(k = h) := fun hh => hne hh.symm
  induction m with
  | nil => simp [setFp, lookupFp, hkh]
  | cons e es ih =>
    by_cases he : e.1 = k
    · have heh : ¬(e.1 = h) := by
        rw [he]
        exact hkh
      simp [setFp, he, lookupFp, hkh, heh]
    · by_cases heh : e.1 = h
      · simp [setFp, he, lookupFp, heh, hne]
      · simp [setFp, he, lookupFp, heh, ih]

theorem firstProducer_append (seen : List (String × Fingerprint))
    (ph : String × Fingerprint) (h : Fingerprint) :
    firstProducer (seen ++ [ph]) h =
      match firstProducer seen h with
      | some o => some o
      | none => if ph.2 = h then some ph.1 else none := by
  induction seen with
  | nil => simp [firstProducer]
  | cons q qs ih =>
    by_cases hq : q.2 = h
    · simp [firstProducer, hq]
    · simp [firstProducer, hq, ih]

theorem dupAux_loop (rest : List (String × Fingerprint)) :
    ∀ (seen : List (String × Fingerprint)) (hashes : List (Fingerprint × String))
      (dups : List (String × String)),
    (∀ h : Fingerprint, h.isError = false → lookupFp hashes h = firstProducer seen h) →
    (rest.foldl dupStep (hashes, dups)).2 = dups ++ specDupAux seen rest := by
  induction rest with
  | nil =>
    intro seen hashes dups _
    simp [specDupAux]
  | cons ph rest ih =>
    intro seen hashes dups hinv
    rw [List.foldl_cons]
    cases he : ph.2.isError with
    | true =>
      have hstep : dupStep (hashes, dups) ph = (setFp hashes ph.2 ph.1, dups) := by
        unfold dupStep
        cases hl : lookupFp hashes ph.2 <;> simp [hl, he]
      rw [hstep]
      have hinv2 : ∀ h : Fingerprint, h.isError = false →
          lookupFp (setFp hashes ph.2 ph.1) h = firstProducer (seen ++ [ph]) h := by
        intro h hh
        have hne : h ≠ ph.2 := by
          intro hcontra
          rw [hcontra, he] at hh
          exact Bool.noConfusion hh
        rw [lookupFp_setFp_ne hashes ph.2 h ph.1 hne, firstProducer_append]
        rw [hinv h hh]
        have hpn : ¬(ph.2 = h) := fun hc => hne hc.symm
        cases firstProducer seen h with
        | some o => rfl
        | none => simp [hpn]
      rw [ih (seen ++ [ph]) _ dups hinv2]
      simp [specDupAux, he]
    | false =>
      cases hl : lookupFp hashes ph.2 with
      | some orig =>
        have hstep : dupStep (hashes, dups) ph = (hashes, dups ++ [(orig, ph.1)]) := by
          unfold dupStep
          simp [hl, he]
        rw [hstep]
        have hfirst : firstProducer seen ph.2 = some orig := by
          rw [← hinv ph.2 he]
          exact hl
        have hinv2 : ∀ h : Fingerprint, h.isError = false →
            lookupFp hashes h = firstProducer (seen ++ [ph]) h := by
          intro h hh
          rw [firstProducer_append, hinv h hh]
          cases hfp : firstProducer seen h with
          | some o => rfl
          | none =>
            by_cases hph : ph.2 = h
            · rw [hph] at hfirst
              rw [hfirst] at hfp
              exact Option.noConfusion hfp
            · simp [hph]
        rw [ih (seen ++ [ph]) hashes _ hinv2]
        simp [specDupAux, he, hfirst, List.append_assoc]
      | none =>
        have hstep : dupStep (hashes, dups) ph = (setFp hashes ph.2 ph.1, dups) := by
          unfold dupStep
          simp [hl]
        rw [hstep]
        have hfirst : firstProducer seen ph.2 = none := by
          rw [← hinv ph.2 he]
          exact hl
        have hinv2 : ∀ h : Fingerprint, h.isError = false →
            lookupFp (setFp hashes ph.2 ph.1) h = firstProducer (seen ++ [ph]) h := by
          intro h hh
          rw [firstProducer_append]
          by_cases hph : h = ph.2
          · rw [hph, lookupFp_setFp_self, hfirst]
            simp
          · rw [lookupFp_setFp_ne hashes ph.2 h ph.1 hph, hinv h hh]
            have hpn : ¬(ph.2 = h) := fun hc => hph hc.symm
            cases firstProducer seen h with
            | some o => rfl
            | none => simp [hpn]
        rw [ih (seen ++ [ph]) _ dups hinv2]
        simp [specDupAux, he, hfirst]

/-- C8: the duplicate pairs recorded by `StatsManager.initialize` are exactly
the spec's pairs: for each photo in scan order whose fingerprint is not an
error fallback and was produced before, one pair whose original is the first
producer of that fingerprint and whose duplicate is the later photo. -/
theorem initialize_duplicates_spec (photos : List (String × Fingerprint)) :
    initializeDuplicates photos = specDuplicates photos := by
  unfold initializeDuplicates specDuplicates
  rw [dupAux_loop photos [] [] [] (fun h _ => rfl)]
  rfl

/-! ### Filesystem model and export planning (photo-sorter.js) -/

/-- A model filesystem: the set of file paths and the set of directory paths.
`mkdirSync` with `recursive` is modeled as adding the one requested directory
(implicit parents are irrelevant to the claims). -/
structure FS where
  files : List String
  dirs : List String
deriving Repr, DecidableEq

/-- Embedding of `fs.existsSync`. -/
def existsSync (fs : FS) (p : String) : Bool :=
  fs.files.contains p || fs.dirs.contains p

/-- Embedding of `ensureDirSync`: create the directory unless something
already exists at the path. -/
def ensureDirSync (fs : FS) (d : String) : FS :=
  if existsSync fs d then fs else { fs with dirs := fs.dirs ++ [d] }

/-- Embedding of `path.join` for the two-argument uses in the source. -/
def pathJoin (a b : String) : String :=
  a ++ "/" ++ b

/-- Characters of the last path segment. -/
def afterLastSlash (l : List Char) : List Char :=
  (l.reverse.takeWhile (fun c => c ≠ '/')).reverse

/-- Embedding of `path.basename` (one-argument form). -/
def baseName (p : String) : String :=
  String.mk (afterLastSlash p.toList)

/-- Embedding of `path.dirname`. -/
def dirName (p : String) : String :=
  String.mk (((p.toList.reverse.dropWhile (fun c => c ≠ '/')).drop 1).reverse)

/-- Embedding of `path.extname`: from the last dot of the base name, empty
when there is no dot or the dot is the leading character. -/
def extName (p : String) : String :=
  let b := afterLastSlash p.toList
  let afterDot := b.reverse.takeWhile (fun c => c ≠ '.')
  if afterDot.length = b.length then ""
  else if afterDot.length + 1 = b.length then ""
  else String.mk ('.' :: afterDot.reverse)

/-- Embedding of `path.basename(p, ext)`: the base name with the suffix `ext`
removed when it is a proper suffix. -/
def baseNameStripExt (p ext : String) : String :=
  let b := afterLastSlash p.toList
  let e := ext.toList
  if e.length < b.length ∧ b.drop (b.length - e.length) = e then
    String.mk (b.take (b.length - e.length))
  else String.mk b

/-- The `while (fs.existsSync(p))` loop of `uniquePath`, with fuel: try
`base_1`, `base_2`, … until a free path is found. -/
def uniqueLoop (fs : FS) (dir base ext : String) : Nat → Nat → String
  | 0, i => pathJoin dir (base ++ "_" ++ toString i ++ ext)
  | fuel + 1, i =>
    let cand := pathJoin dir (base ++ "_" ++ toString i ++ ext)
    if existsSync fs cand then uniqueLoop fs dir base ext fuel (i + 1) else cand

/-- Embedding of `uniquePath`: the target itself when free, else the first
free `_i`-suffixed sibling. -/
def uniquePath (fs : FS) (target : String) : String :=
  if existsSync fs target then
    uniqueLoop fs (dirName target) (baseNameStripExt target (extName target))
      (extName target) (fs.files.length + fs.dirs.length + 1) 1
  else target

/-- Embedding of the character class `[<>:"/\\|?*]`. -/
def invalidFsChar (c : Char) : Bool :=
  c == '<' || c == '>' || c == ':' || c == '"' || c == '/' || c == '\\' ||
    c == '|' || c == '?' || c == '*'

/-- The reserved Windows device names checked by `safeTagToFolder`. -/
def reservedNames : List String :=
  ["CON", "PRN", "AUX", "NUL", "COM1", "COM2", "COM3", "COM4", "COM5", "COM6",
   "COM7", "COM8", "COM9", "LPT1", "LPT2", "LPT3", "LPT4", "LPT5", "LPT6",
   "LPT7", "LPT8", "LPT9"]

/-- Embedding of `safeTagToFolder`: trim, replace illegal characters, collapse
whitespace, trim, strip trailing dots and spaces, guard reserved device names,
default to `tag`, truncate to 100 characters. -/
def safeTagToFolder (tag : String) : String :=
  let s0 := trimChars tag.toList
  let s1 := s0.map (fun c => if invalidFsChar c then '_' else c)
  let s2 := trimChars (collapseWs s1)
  let s3 := (s2.reverse.dropWhile (fun c => c == ' ' || c == '.')).reverse
  let s4 := if reservedNames.contains (String.mk (s3.map Char.toUpper)) then '_' :: s3 else s3
  let s5 := if s4.length = 0 then 't' :: 'a' :: 'g' :: [] else s4
  String.mk (if s5.length > 100 then s5.take 100 else s5)

/-- One planned filesystem operation (a move or a link). -/
structure PlanItem where
  src : String
  dest : String
deriving Repr, DecidableEq

/-- Embedding of the plan record built by `buildExportPlan`. -/
structure ExportPlan where
  total : Nat
  tagged : Nat
  untagged : Nat
  perTag : List (String × Nat)
  moves : List PlanItem
  links : List PlanItem
deriving Repr, DecidableEq

/-- The plan literal `{ total: 0, tagged: 0, untagged: 0, perTag: {}, moves: [], links: [] }`. -/
def emptyPlan : ExportPlan :=
  { total := 0, tagged := 0, untagged := 0, perTag := [], moves := [], links := [] }

/-- Embedding of `plan.perTag[t] = (plan.perTag[t] || 0) + 1` on an ordered
association list. -/
def bumpCount : List (String × Nat) → String → List (String × Nat)
  | [], t => [(t, 1)]
  | e :: rest, t => if e.1 = t then (e.1, e.2 + 1) :: rest else e :: bumpCount rest t

/-- One iteration of the secondary-tag loop: ensure the tag folder, pick a
collision-safe destination there, and queue a link whose source is the primary
move's destination. -/
def linkStep (exportRoot fileName destPrimary : String) (a : ExportPlan × FS)
    (t : String) : ExportPlan × FS :=
  let folder := pathJoin exportRoot (safeTagToFolder t)
  let fs2 := ensureDirSync a.2 folder
  let dest := uniquePath fs2 (pathJoin folder fileName)
  ({ a.1 with links := a.1.links ++ [{ src := destPrimary, dest := dest }] }, fs2)

/-- One iteration of the per-photo loop of `buildExportPlan`. -/
def planStep (project : Project) (sourceFolder exportRoot : String)
    (acc : ExportPlan × FS) (fileName : String) : ExportPlan × FS :=
  match (lookupImg project.images fileName).getD [] with
  | [] => ({ acc.1 with untagged := acc.1.untagged + 1 }, acc.2)
  | primary :: secondary =>
    let plan1 := { acc.1 with tagged := acc.1.tagged + 1 }
    let primaryFolder := pathJoin exportRoot (safeTagToFolder primary)
    let fs1 := ensureDirSync acc.2 primaryFolder
    let srcAbs := pathJoin sourceFolder fileName
    let destPrimary := uniquePath fs1 (pathJoin primaryFolder fileName)
    let plan2 := { plan1 with moves := plan1.moves ++ [{ src := srcAbs, dest := destPrimary }] }
    let linkAcc := secondary.foldl (linkStep exportRoot fileName destPrimary) (plan2, fs1)
    ({ linkAcc.1 with perTag := (primary :: secondary).foldl bumpCount linkAcc.1.perTag },
      linkAcc.2)

/-- Embedding of `buildExportPlan`: returns the computed plan together with
the filesystem state after planning (planning calls `ensureDirSync`). -/
def buildExportPlan (fs : FS) (project : Option Project) (photos : List String)
    (sourceFolder exportRoot : String) : ExportPlan × FS :=
  match project with
  | none => (emptyPlan, fs)
  | some proj =>
    let fileNames := photos.map baseName
    fileNames.foldl (planStep proj sourceFolder exportRoot)
      ({ emptyPlan with total := fileNames.length }, fs)

/-- Embedding of the `export-dry-run` handler: default the export root to the
source folder (a missing or non-string argument is modeled as `none`), ensure
it exists, and build the plan. -/
def exportDryRun (fs : FS) (project : Option Project) (photos : List String)
    (sourceFolder : String) (exportRootArg : Option String) : ExportPlan × FS :=
  let exportRoot := exportRootArg.getD sourceFolder
  let fs1 := ensureDirSync fs exportRoot
  buildExportPlan fs1 project photos sourceFolder exportRoot


/-- Boolean check that a filesystem transition kept every file exactly and
only added directories. -/
def fsDirsGrowOnly (fs fs' : FS) : Bool :=
  fs'.files == fs.files && fs.dirs.all (fun d => fs'.dirs.contains d)

/-- Propositional form of `fsDirsGrowOnly`. -/
def FsExtends (fs fs' : FS) : Prop :=
  fs'.files = fs.files ∧ ∀ d ∈ fs.dirs, d ∈ fs'.dirs

theorem fsDirsGrowOnly_iff (fs fs' : FS) :
    fsDirsGrowOnly fs fs' = true ↔ FsExtends fs fs' := by
  simp [fsDirsGrowOnly, FsExtends, List.all_eq_true]

theorem fsExtends_refl (fs : FS) : FsExtends fs fs :=
  ⟨rfl, fun _ hd => hd⟩

theorem fsExtends_trans {a b c : FS} (h1 : FsExtends a b) (h2 : FsExtends b c) :
    FsExtends a c :=
  ⟨h2.1.trans h1.1, fun d hd => h2.2 d (h1.2 d hd)⟩

theorem ensureDirSync_extends (fs : FS) (d : String) :
    FsExtends fs (ensureDirSync fs d) := by
  unfold ensureDirSync
  split_ifs
  · exact fsExtends_refl fs
  · exact ⟨rfl, fun x hx => List.mem_append_left _ hx⟩

theorem linkStep_extends (root fn dp : String) (a : ExportPlan × FS) (t : String) :
    FsExtends a.2 (linkStep root fn dp a t).2 :=
  ensureDirSync_extends a.2 _

theorem linkFold_extends (root fn dp : String) :
    ∀ (l : List String) (a : ExportPlan × FS),
      FsExtends a.2 ((l.foldl (linkStep root fn dp) a).2) := by
  intro l
  induction l with
  | nil => intro a; exact fsExtends_refl a.2
  | cons t ts ih =>
    intro a
    rw [List.foldl_cons]
    exact fsExtends_trans (linkStep_extends root fn dp a t) (ih _)

theorem planStep_extends (proj : Project) (src root : String)
    (acc : ExportPlan × FS) (f : String) :
    FsExtends acc.2 (planStep proj src root acc f).2 := by
  unfold planStep
  cases (lookupImg proj.images f).getD [] with
  | nil => exact fsExtends_refl acc.2
  | cons primary secondary =>
    exact fsExtends_trans (ensureDirSync_extends acc.2 _)
      (linkFold_extends root f _ secondary _)

theorem planFold_extends (proj : Project) (src root : String) :
    ∀ (names : List String) (acc : ExportPlan × FS),
      FsExtends acc.2 ((names.foldl (planStep proj src root) acc).2) := by
  intro names
  induction names with
  | nil => intro acc; exact fsExtends_refl acc.2
  | cons f fs ih =>
    intro acc
    rw [List.foldl_cons]
    exact fsExtends_trans (planStep_extends proj src root acc f) (ih _)

theorem buildExportPlan_extends (fs : FS) (project : Option Project)
    (photos : List String) (src root : String) :
    FsExtends fs (buildExportPlan fs project photos src root).2 := by
  unfold buildExportPlan
  cases project with
  | none => exact fsExtends_refl fs
  | some proj => exact planFold_extends proj src root _ _

/-- C1, corrected: computing an export plan never changes the set of files
(no move, link, copy or delete happens during planning), and never removes a
directory, but it is not mutation-free: `buildExportPlan` and the dry-run
handler create the export root and the per-tag folders with `mkdirSync`. -/
theorem buildExportPlan_files_untouched (fs : FS) (project : Option Project)
    (photos : List String) (src root : String) (rootArg : Option String) :
    fsDirsGrowOnly fs (buildExportPlan fs project photos src root).2 = true
    ∧ fsDirsGrowOnly fs (exportDryRun fs project photos src rootArg).2 = true := by
  constructor
  · exact (fsDirsGrowOnly_iff _ _).mpr (buildExportPlan_extends fs project photos src root)
  · refine (fsDirsGrowOnly_iff _ _).mpr ?_
    unfold exportDryRun
    exact fsExtends_trans (ensureDirSync_extends fs _)
      (buildExportPlan_extends _ project photos src _)

/-- C1 counterexample: planning one tagged photo into a fresh export root
creates the tag directory, so the filesystem after planning differs from the
filesystem before. -/
theorem buildExportPlan_mutates_fs :
    (buildExportPlan { files := ["/r/a.jpg"], dirs := ["/r"] }
      (some { version := 1, root := ".", images := [("a.jpg", ["Yes"])],
              tags := ["Yes"], updatedAt := 0 })
      ["/r/a.jpg"] "/r" "/e").2 ≠
    { files := ["/r/a.jpg"], dirs := ["/r"] } := by
  decide

/-- C9: the spec's export scenario.  Tags `["Yes","Maybe"]` on `img001.jpg`
and `["Yes"]` on `img002.jpg` plan two moves into `Yes`, one link
`Maybe/img001.jpg` whose source is the move destination `Yes/img001.jpg`, and
report `tagged = 2`, `untagged = 0`, `perTag = {Yes: 2, Maybe: 1}`. -/
theorem export_plan_scenario :
    (buildExportPlan { files := ["/r/img001.jpg", "/r/img002.jpg"], dirs := ["/r", "/e"] }
      (some { version := 1, root := ".",
              images := [("img001.jpg", ["Yes", "Maybe"]), ("img002.jpg", ["Yes"])],
              tags := ["Yes", "Maybe"], updatedAt := 0 })
      ["/r/img001.jpg", "/r/img002.jpg"] "/r" "/e").1 =
    { total := 2, tagged := 2, untagged := 0,
      perTag := [("Yes", 2), ("Maybe", 1)],
      moves := [{ src := "/r/img001.jpg", dest := "/e/Yes/img001.jpg" },
                { src := "/r/img002.jpg", dest := "/e/Yes/img002.jpg" }],
      links := [{ src := "/e/Yes/img001.jpg", dest := "/e/Maybe/img001.jpg" }] } := by
  decide

theorem linkFold_counts (root fn dp : String) :
    ∀ (l : List String) (a : ExportPlan × FS),
      ((l.foldl (linkStep root fn dp) a).1.tagged = a.1.tagged)
      ∧ ((l.foldl (linkStep root fn dp) a).1.untagged = a.1.untagged)
      ∧ ((l.foldl (linkStep root fn dp) a).1.total = a.1.total) := by
  intro l
  induction l with
  | nil => intro a; exact ⟨rfl, rfl, rfl⟩
  | cons t ts ih =>
    intro a
    rw [List.foldl_cons]
    exact ih _

theorem planStep_counts (proj : Project) (src root : String)
    (acc : ExportPlan × FS) (f : String) :
    ((planStep proj src root acc f).1.tagged + (planStep proj src root acc f).1.untagged
      = acc.1.tagged + acc.1.untagged + 1)
    ∧ (planStep proj src root acc f).1.total = acc.1.total := by
  unfold planStep
  cases (lookupImg proj.images f).getD [] with
  | nil =>
    simp
    omega
  | cons primary secondary =>
    simp only []
    obtain ⟨ht, hu, htot⟩ := linkFold_counts root f
      (uniquePath (ensureDirSync acc.2 (pathJoin root (safeTagToFolder primary)))
        (pathJoin (pathJoin root (safeTagToFolder primary)) f))
      secondary
      ({ acc.1 with
          tagged := acc.1.tagged + 1,
          moves := acc.1.moves ++
            [{ src := pathJoin src f,
               dest := uniquePath (ensureDirSync acc.2 (pathJoin root (safeTagToFolder primary)))
                 (pathJoin (pathJoin root (safeTagToFolder primary)) f) }] },
        ensureDirSync acc.2 (pathJoin root (safeTagToFolder primary)))
    constructor
    · rw [ht, hu]
      dsimp only
      omega
    · rw [htot]

theorem planFold_counts (proj : Project) (src root : String) :
    ∀ (names : List String) (acc : ExportPlan × FS),
      ((names.foldl (planStep proj src root) acc).1.tagged
        + (names.foldl (planStep proj src root) acc).1.untagged
        = acc.1.tagged + acc.1.untagged + names.length)
      ∧ (names.foldl (planStep proj src root) acc).1.total = acc.1.total := by
  intro names
  induction names with
  | nil => intro acc; exact ⟨rfl, rfl⟩
  | cons f fs ih =>
    intro acc
    rw [List.foldl_cons]
    obtain ⟨hsum, htot⟩ := ih (planStep proj src root acc f)
    obtain ⟨hsum1, htot1⟩ := planStep_counts proj src root acc f
    constructor
    · rw [hsum, hsum1]
      simp [Nat.add_assoc, Nat.add_comm, Nat.add_left_comm]
    · rw [htot, htot1]

/-- C10: in every plan built from a project, every scanned photo is counted in
exactly one of the two categories: `tagged + untagged = total`, and `total` is
the number of scanned photos. -/
theorem buildExportPlan_partition (fs : FS) (proj : Project) (photos : List String)
    (src root : String) :
    ((buildExportPlan fs (some proj) photos src root).1.tagged
      + (buildExportPlan fs (some proj) photos src root).1.untagged
      = (buildExportPlan fs (some proj) photos src root).1.total)
    ∧ (buildExportPlan fs (some proj) photos src root).1.total = photos.length := by
  unfold buildExportPlan
  obtain ⟨hsum, htot⟩ := planFold_counts proj src root (photos.map baseName)
    ({ emptyPlan with total := (photos.map baseName).length }, fs)
  constructor
  · rw [hsum, htot]
    simp [emptyPlan]
  · rw [htot]
    simp [emptyPlan]


/-! ### Export execution (photo-sorter.js, `export-execute` handler,
`moveWithFallbackSync` / `linkOrCopySync`) -/

/-- Outcome of the filesystem calls inside one `moveWithFallbackSync`: the
rename succeeds, it fails with `EXDEV` and the copy fallback succeeds, it
fails with `EXDEV` and the copy fallback throws, or it fails with any other
error. -/
inductive MoveOutcome where
  | renameOk
  | exdevCopyOk
  | exdevCopyFail
  | renameFail
deriving Repr, DecidableEq

/-- Embedding of `moveWithFallbackSync`: `EXDEV` falls back to
copy-then-delete (the delete error is swallowed); any other rename error and
any copy error propagate to the caller. -/
def moveWithFallbackSync : MoveOutcome → Except String Unit
  | .renameOk => .ok ()
  | .exdevCopyOk => .ok ()
  | .exdevCopyFail => .error "copy failed"
  | .renameFail => .error "move failed"

/-- Outcome of the filesystem calls inside one `linkOrCopySync`. -/
inductive LinkOutcome where
  | linkOk
  | linkFailCopyOk
  | linkFailCopyFail
deriving Repr, DecidableEq

/-- Embedding of `linkOrCopySync`: any link error falls back to a plain copy;
a copy error propagates. -/
def linkOrCopySync : LinkOutcome → Except String Unit
  | .linkOk => .ok ()
  | .linkFailCopyOk => .ok ()
  | .linkFailCopyFail => .error "copy failed"

/-- Whether a move outcome completes without throwing. -/
def moveOk (m : MoveOutcome) : Bool :=
  match moveWithFallbackSync m with
  | .ok _ => true
  | .error _ => false

/-- Whether a link outcome completes without throwing. -/
def linkOk (l : LinkOutcome) : Bool :=
  match linkOrCopySync l with
  | .ok _ => true
  | .error _ => false

/-- The `for (const m of plan.moves)` loop: runs each move in plan order until
one throws; returns how many moves were attempted and the first error. -/
def runMoves : List MoveOutcome → Nat × Option String
  | [] => (0, none)
  | m :: rest =>
    match moveWithFallbackSync m with
    | .ok _ =>
      let r := runMoves rest
      (r.1 + 1, r.2)
    | .error msg => (1, some msg)

/-- The `for (const l of plan.links)` loop, same shape. -/
def runLinks : List LinkOutcome → Nat × Option String
  | [] => (0, none)
  | l :: rest =>
    match linkOrCopySync l with
    | .ok _ =>
      let r := runLinks rest
      (r.1 + 1, r.2)
    | .error msg => (1, some msg)

/-- What the `export-execute` handler returns: `{ok: true, moved, linked}` on
success, or `{ok: false, error}` from the surrounding catch. -/
inductive ExecResult where
  | success (moved linked : Nat)
  | failure (error : String)
deriving Repr, DecidableEq

/-- Embedding of the `export-execute` handler body over the outcome sequences
of the planned moves and links: both loops run inside one try/catch, so the
first thrown error aborts everything and is returned; on success the handler
reports the full plan lengths. -/
def exportExecute (moves : List MoveOutcome) (links : List LinkOutcome) : ExecResult :=
  match (runMoves moves).2 with
  | some e => .failure e
  | none =>
    match (runLinks links).2 with
    | some e => .failure e
    | none => .success moves.length links.length

/-- Number of moves the handler actually attempts. -/
def movesAttempted (moves : List MoveOutcome) : Nat :=
  (runMoves moves).1

/-- Number of links the handler actually attempts: none when a move threw. -/
def linksAttempted (moves : List MoveOutcome) (links : List LinkOutcome) : Nat :=
  match (runMoves moves).2 with
  | some _ => 0
  | none => (runLinks links).1

/-- C2 counterexample: a plan whose first move fails with a non-`EXDEV` error
and whose second move would succeed.  The handler attempts only the first
move (the later move is not attempted) and returns `{ok: false}` rather than
per-item failure detail with completed counts. -/
theorem exportExecute_aborts_on_move_failure :
    movesAttempted [.renameFail, .renameOk] = 1
    ∧ exportExecute [.renameFail, .renameOk] [.linkOk] = .failure "move failed"
    ∧ linksAttempted [.renameFail, .renameOk] [.linkOk] = 0 := by
  decide

theorem runMoves_all_ok {moves : List MoveOutcome}
    (h : ∀ m ∈ moves, moveOk m = true) :
    runMoves moves = (moves.length, none) := by
  induction moves with
  | nil => rfl
  | cons m rest ih =>
    have hm : moveOk m = true := h m (List.mem_cons_self m rest)
    unfold runMoves
    unfold moveOk at hm
    cases hmv : moveWithFallbackSync m with
    | error e =>
      rw [hmv] at hm
      exact Bool.noConfusion hm
    | ok u =>
      rw [ih (fun x hx => h x (List.mem_cons_of_mem m hx))]
      rfl

theorem runLinks_all_ok {links : List LinkOutcome}
    (h : ∀ l ∈ links, linkOk l = true) :
    runLinks links = (links.length, none) := by
  induction links with
  | nil => rfl
  | cons l rest ih =>
    have hl : linkOk l = true := h l (List.mem_cons_self l rest)
    unfold runLinks
    unfold linkOk at hl
    cases hlv : linkOrCopySync l with
    | error e =>
      rw [hlv] at hl
      exact Bool.noConfusion hl
    | ok u =>
      rw [ih (fun x hx => h x (List.mem_cons_of_mem l hx))]
      rfl

theorem runMoves_first_failure (pre : List MoveOutcome) :
    ∀ (bad : MoveOutcome) (post : List MoveOutcome),
      (∀ m ∈ pre, moveOk m = true) → moveOk bad = false →
      (runMoves (pre ++ bad :: post)).1 = pre.length + 1
      ∧ (runMoves (pre ++ bad :: post)).2.isSome = true := by
  induction pre with
  | nil =>
    intro bad post _ hbad
    have hbad2 : moveOk bad = false := hbad
    unfold moveOk at hbad2
    rw [List.nil_append]
    unfold runMoves
    cases hmv : moveWithFallbackSync bad with
    | ok u =>
      rw [hmv] at hbad2
      exact Bool.noConfusion hbad2
    | error e => exact ⟨rfl, rfl⟩
  | cons m pre ih =>
    intro bad post hpre hbad
    have hm : moveOk m = true := hpre m (List.mem_cons_self m pre)
    rw [List.cons_append]
    unfold runMoves
    unfold moveOk at hm
    cases hmv : moveWithFallbackSync m with
    | error e =>
      rw [hmv] at hm
      exact Bool.noConfusion hm
    | ok u =>
      obtain ⟨h1, h2⟩ := ih bad post (fun x hx => hpre x (List.mem_cons_of_mem m hx)) hbad
      constructor
      · show (runMoves (pre ++ bad :: post)).1 + 1 = (m :: pre).length + 1
        rw [h1]
        simp
      · show (runMoves (pre ++ bad :: post)).2.isSome = true
        exact h2

/-- C2, corrected: a cross-device rename falls back to copy-then-delete and
execution continues, but any move failure that throws (a non-`EXDEV` rename
error, or a failing copy fallback) aborts the whole handler: the moves after
the failing one and all links are not attempted, and the handler returns a
single `{ok: false, error}` instead of per-item results; only a fully
successful run reports counts, which always equal the full plan lengths. -/
theorem exportExecute_first_failure_aborts (moves : List MoveOutcome)
    (links : List LinkOutcome) :
    ((∀ m ∈ moves, moveOk m = true) → (∀ l ∈ links, linkOk l = true) →
      exportExecute moves links = .success moves.length links.length)
    ∧ (moveWithFallbackSync .exdevCopyOk = .ok ())
    ∧ (∀ (pre : List MoveOutcome) (bad : MoveOutcome) (post : List MoveOutcome),
        moves = pre ++ bad :: post →
        (∀ m ∈ pre, moveOk m = true) → moveOk bad = false →
        movesAttempted moves = pre.length + 1
        ∧ linksAttempted moves links = 0
        ∧ ∃ e, exportExecute moves links = .failure e) := by
  refine ⟨?_, rfl, ?_⟩
  · intro hm hl
    unfold exportExecute
    rw [runMoves_all_ok hm, runLinks_all_ok hl]
  · intro pre bad post heq hpre hbad
    subst heq
    obtain ⟨h1, h2⟩ := runMoves_first_failure pre bad post hpre hbad
    obtain ⟨e, he⟩ := Option.isSome_iff_exists.mp h2
    refine ⟨h1, ?_, e, ?_⟩
    · unfold linksAttempted
      rw [he]
    · unfold exportExecute
      rw [he]

/-- Closed instance of C2 as amended: with a succeeding first move, a failing
second move and one link, exactly two moves are attempted, no link is
attempted, and the result is a failure; with all outcomes succeeding the
handler reports the plan lengths. -/
theorem exportExecute_first_failure_aborts_witness :
    movesAttempted [.renameOk, .exdevCopyFail, .renameOk] = 2
    ∧ linksAttempted [.renameOk, .exdevCopyFail, .renameOk] [.linkOk] = 0
    ∧ (∃ e, exportExecute [.renameOk, .exdevCopyFail, .renameOk] [.linkOk] = .failure e)
    ∧ exportExecute [.renameOk, .exdevCopyOk] [.linkFailCopyOk] = .success 2 1 := by
  obtain ⟨h1, h2, h3⟩ :=
    (exportExecute_first_failure_aborts [.renameOk, .exdevCopyFail, .renameOk] [.linkOk]).2.2
      [.renameOk] .exdevCopyFail [.renameOk] rfl (by decide) (by decide)
  refine ⟨h1, h2, h3, ?_⟩
  exact (exportExecute_first_failure_aborts [.renameOk, .exdevCopyOk] [.linkFailCopyOk]).1
    (by decide) (by decide)


/-! ### Debounced persistence and the export / revert reads (projectManager.js
`save` / `#scheduleSave`, photo-sorter.js `export-execute` / `revert-export`
handlers) -/

/-- The `ProjectManager` runtime state: the in-memory project and the payload
of the pending debounced write, when the `#saveTimer` is armed
(`#scheduleSave` cancels and re-arms it with the latest serialized state). -/
structure PMState where
  project : Project
  pendingSave : Option Project
deriving Repr, DecidableEq

/-- The operations the renderer can drive between opening a project and an
export or revert: tag mutations and `save()` calls (each `save` stamps
`updatedAt` and schedules the debounced write of a snapshot). -/
inductive PMOp where
  | addTagOp (fileName rawTag : String)
  | removeTagOp (fileName rawTag : String)
  | saveOp (now : Nat)
deriving Repr, DecidableEq

/-- Effect of one operation on the manager state.  Tag mutations update the
in-memory project synchronously and leave the timer alone; `save` replaces
any pending write with a fresh snapshot of the whole current state. -/
def applyOp (s : PMState) : PMOp → PMState
  | .addTagOp f t => { s with project := addTag s.project f t }
  | .removeTagOp f t => { s with project := removeTag s.project f t }
  | .saveOp now =>
    let p := { s.project with updatedAt := now }
    { project := p, pendingSave := some p }

def applyOps (s : PMState) : List PMOp → PMState
  | [] => s
  | op :: rest => applyOps (applyOp s op) rest

/-- What the `export-execute` handler does to the manager state when it reads
`projectManager.project` (through `buildExportPlan`): it reads the in-memory
project and calls neither a flush nor a cancel, so the state — including any
pending debounced save — is untouched. -/
def exportExecuteProjectRead (s : PMState) : Project × PMState :=
  (s.project, s)

/-- What the `revert-export` handler does to the manager state when it reads
`projectManager.project`: likewise a plain in-memory read with no flush. -/
def revertProjectRead (s : PMState) : Project × PMState :=
  (s.project, s)

/-- The tag mutations of an operation sequence applied directly to a project,
ignoring persistence: the reference for "the state includes every mutation". -/
def applyTagOps (p : Project) : List PMOp → Project
  | [] => p
  | .addTagOp f t :: rest => applyTagOps (addTag p f t) rest
  | .removeTagOp f t :: rest => applyTagOps (removeTag p f t) rest
  | .saveOp _ :: rest => applyTagOps p rest

theorem addTag_updatedAt (q : Project) (m : Nat) (f t : String) :
    addTag { q with updatedAt := m } f t = { addTag q f t with updatedAt := m } := by
  unfold addTag
  by_cases he : normalizeTag t = ""
  · simp [he]
  · simp [he]

theorem removeTag_updatedAt (q : Project) (m : Nat) (f t : String) :
    removeTag { q with updatedAt := m } f t = { removeTag q f t with updatedAt := m } := by
  unfold removeTag
  by_cases he : normalizeTag t = ""
  · simp [he]
  · simp only [he, if_neg, Bool.false_eq_true, not_false_iff]
    cases lookupImg q.images f <;> rfl

theorem applyTagOps_updatedAt (l : List PMOp) :
    ∀ (q : Project) (m : Nat),
      applyTagOps { q with updatedAt := m } l = { applyTagOps q l with updatedAt := m } := by
  induction l with
  | nil => intro q m; rfl
  | cons op rest ih =>
    intro q m
    cases op with
    | addTagOp f t =>
      show applyTagOps (addTag { q with updatedAt := m } f t) rest = _
      rw [addTag_updatedAt, ih]
      rfl
    | removeTagOp f t =>
      show applyTagOps (removeTag { q with updatedAt := m } f t) rest = _
      rw [removeTag_updatedAt, ih]
      rfl
    | saveOp n => exact ih q m

theorem applyOps_project_tags (ops : List PMOp) :
    ∀ s : PMState, (applyOps s ops).project.images = (applyTagOps s.project ops).images
      ∧ (applyOps s ops).project.tags = (applyTagOps s.project ops).tags := by
  induction ops with
  | nil => intro s; exact ⟨rfl, rfl⟩
  | cons op rest ih =>
    intro s
    cases op with
    | addTagOp f t => exact ih (applyOp s (.addTagOp f t))
    | removeTagOp f t => exact ih (applyOp s (.removeTagOp f t))
    | saveOp now =>
      obtain ⟨h1, h2⟩ := ih (applyOp s (.saveOp now))
      constructor
      · show (applyOps (applyOp s (.saveOp now)) rest).project.images
            = (applyTagOps s.project rest).images
        rw [h1]
        show (applyTagOps { s.project with updatedAt := now } rest).images
            = (applyTagOps s.project rest).images
        rw [applyTagOps_updatedAt]
      · show (applyOps (applyOp s (.saveOp now)) rest).project.tags
            = (applyTagOps s.project rest).tags
        rw [h2]
        show (applyTagOps { s.project with updatedAt := now } rest).tags
            = (applyTagOps s.project rest).tags
        rw [applyTagOps_updatedAt]

/-- C3, corrected: the export-execute and revert-export handlers read the
in-memory `Project`, which already reflects every tag mutation applied before
them (mutations are synchronous; the 500 ms debounce delays only the disk
write), so they do not act on stale data — but they force no flush: the read
leaves the manager state, including any pending debounced save, untouched. -/
theorem export_revert_read_in_memory_state (s : PMState) (ops : List PMOp) :
    (exportExecuteProjectRead (applyOps s ops)).1.images
      = (applyTagOps s.project ops).images
    ∧ (exportExecuteProjectRead (applyOps s ops)).1.tags
      = (applyTagOps s.project ops).tags
    ∧ (exportExecuteProjectRead (applyOps s ops)).2 = applyOps s ops
    ∧ (revertProjectRead (applyOps s ops)).2 = applyOps s ops := by
  obtain ⟨h1, h2⟩ := applyOps_project_tags ops s
  exact ⟨h1, h2, rfl, rfl⟩

/-- C3 counterexample: after a tag mutation followed by `save()`, a debounced
write is pending; when export-execute (or revert-export) reads the project
state, no flush happens and the pending write is still outstanding — contrary
to the claim that these operations force an immediate flush so that no pending
debounced write is outstanding when they read. -/
theorem export_read_with_pending_save :
    ((exportExecuteProjectRead (applyOps { project := newProject 0, pendingSave := none }
        [.addTagOp "a.jpg" "Yes", .saveOp 1])).2).pendingSave ≠ none
    ∧ ((revertProjectRead (applyOps { project := newProject 0, pendingSave := none }
        [.addTagOp "a.jpg" "Yes", .saveOp 1])).2).pendingSave ≠ none := by
  decide

end PhotoSorter
